import Mathlib

/-!
# Shallow embedding of the simple-blockchain PoW core

This file embeds the Python sources of the `simple-blockchain` repository
(`bitcoin/data/block.py`, `bitcoin/data/blockchain.py`,
`bitcoin/interface/interface.py`, `bitcoin/interface/daemon.py`) into Lean 4
and proves or refutes the frozen claims about them.

Modelling conventions:

* Python `int` values are modelled as `ℤ` (or `ℕ` where the source can only
  produce non-negative values, such as list lengths and block indices);
  JSON numbers carrying coin amounts are modelled as `ℚ` (the source mixes
  `int` amounts with the `float` reward `3.125`; all arithmetic the claims
  exercise is exact in both domains).
* SHA-256, RSA and the JSON encoder are external library calls
  (`hashlib`, `cryptography`, `json`); the spec treats them as an assumed
  abstract `Crypto` capability, and so does this embedding: the structure
  `Crypto` collects them as function parameters.  Hex digests are modelled
  as the numeric value of the digest where the source only compares them.
* Python `dict`s keyed by transaction id are modelled as insertion-ordered
  association lists (`PyDict`); the operations below reproduce `get`,
  item assignment, `pop` and `setdefault(...).append`.
* Fallible code is modelled with `Except Unit`/dedicated result types: a
  `.error ()`/`.err` result means the Python code raises an exception at
  that point (`TypeError`, `KeyError`, `IndexError`, ...).
-/

namespace SimpleBlockchain

/-- A transaction input, the dict `{tx_id, v_out, key, signature}`
(`bitcoin/data/blockchain.py`, spec §3).  `tx_id` is the referenced
transaction's hex digest modelled numerically; `key` and `signature` are the
hex-encoded public key and signature, also modelled numerically.  `v_out` is
a JSON integer. -/
structure TxIn where
  tx_id : ℕ
  v_out : ℤ
  key : ℕ
  signature : ℕ
deriving Repr, DecidableEq

/-- A transaction output: either `{amount, keyhash}` or `{data, keyhash}`.
Both fields are kept optional because the source accesses them with
`tx.get("amount")` / `tx["data"]` and a dict may in principle carry any
subset. -/
structure TxOut where
  amount : Option ℚ
  data : Option String
  keyhash : ℕ
deriving Repr, DecidableEq

/-- A transaction record (`version` present; `inputs`, `outputs` and the
`coinbase` marker optional).  `coinbase : Bool` models truthiness of
`t.get("coinbase")`. -/
structure Transaction where
  version : ℤ
  inputs : Option (List TxIn)
  outputs : Option (List TxOut)
  coinbase : Bool
deriving Repr, DecidableEq

/-- The block header dataclass of `bitcoin/data/block.py`. -/
structure BlockHeader where
  version : ℤ
  hash_parent : String
  hash_merkle : String
  time : ℤ
  target : String
  nonce : ℤ
deriving Repr, DecidableEq

/-- `BlockHeader.__repr__`: the delimiter-free concatenation used for
hashing. -/
def BlockHeader.reprStr (h : BlockHeader) : String :=
  toString h.version ++ h.hash_parent ++ h.hash_merkle ++ toString h.time
    ++ h.target ++ toString h.nonce

/-- The abstract cryptographic/encoding capability (spec §1, §6): SHA-256,
the JSON encoder and the RSA helpers of `bitcoin/data/crypto.py` are external
library calls, taken here as parameters.  Byte strings are `List ℕ` (each
entry a byte), loaded key/signature objects are modelled numerically, and
`load_pubkey`/`load_signature` return `none` where the library call raises on
malformed input. -/
structure Crypto where
  sha256 : List ℕ → List ℕ
  jsonDumpsTx : Transaction → List ℕ
  hash_transaction : Transaction → ℕ
  load_pubkey : ℕ → Option ℕ
  load_signature : ℕ → Option ℕ
  hash_pubkey : ℕ → ℕ
  verify : ℕ → ℕ → String → Bool
  strOfAmount : ℚ → String

/-! ## Python dict / list helpers -/

/-- Insertion-ordered dict keyed by transaction ids. -/
abbrev PyDict (α : Type) := List (ℕ × α)

/-- `d.get(k)` (also `d[k]` after a successful membership test). -/
def dictGet {α : Type} (d : PyDict α) (k : ℕ) : Option α :=
  (d.find? (fun p => p.1 == k)).map (·.2)

/-- `d[k] = v`: update in place when the key exists, append otherwise. -/
def dictSet {α : Type} (d : PyDict α) (k : ℕ) (v : α) : PyDict α :=
  if (d.find? (fun p => p.1 == k)).isSome then
    d.map (fun p => if p.1 == k then (k, v) else p)
  else d ++ [(k, v)]

/-- `d.pop(k)` (the returned value is never used by the source). -/
def dictPop {α : Type} (d : PyDict α) (k : ℕ) : PyDict α :=
  d.filter (fun p => p.1 != k)

/-- `d.setdefault(k, []).append(v)`. -/
def dictSetdefaultAppend (d : PyDict (List ℤ)) (k : ℕ) (v : ℤ) :
    PyDict (List ℤ) :=
  match dictGet d k with
  | some l => dictSet d k (l ++ [v])
  | none => d ++ [(k, [v])]

/-- Python list indexing `l[i]` with an `int` index: non-negative indices
from the front, negative indices from the back, `none` on `IndexError`. -/
def pyIndex {α : Type} (l : List α) (i : ℤ) : Option α :=
  if 0 ≤ i then l.get? i.toNat
  else if i.natAbs ≤ l.length then l.get? (l.length - i.natAbs)
  else none

/-- `l.pop(i)` for `0 ≤ i`: `none` models the `IndexError` on `i ≥ len(l)`. -/
def pyPopAt {α : Type} (l : List α) (i : ℕ) : Option (List α) :=
  if i < l.length then some (l.eraseIdx i) else none

/-- `list(set(a) - set(b))`.  Only the underlying set of the result is
observable in the source (membership tests and emptiness); the iteration
order of a Python set is an implementation detail, fixed here as
first-occurrence order. -/
def pySetDiff (a b : List ℤ) : List ℤ :=
  a.dedup.filter (fun x => x ∉ b)

/-! ## Hex strings -/

/-- Lowercase hex rendering of a natural number, as Python's `"%x"`
(`Nat.digitChar` maps 10..15 to 'a'..'f'). -/
def natHexStr (n : ℕ) : String :=
  ⟨Nat.toDigits 16 n⟩

/-- Python `hex(z)`: `0x…` with a leading `-` for negative arguments. -/
def pyHex (z : ℤ) : String :=
  (if z < 0 then "-0x" else "0x") ++ natHexStr z.natAbs

/-- `bytes.hexdigest()`-style rendering: two lowercase hex characters per
byte (entries are masked to byte range, which is the identity on genuine
digest bytes). -/
def bytesToHex (bs : List ℕ) : String :=
  ⟨bs.foldr (fun b acc =>
    Nat.digitChar (b % 256 / 16) :: Nat.digitChar (b % 16) :: acc) []⟩

/-- Value of a single hex character, `none` for a non-hex character. -/
def hexDigitVal? (c : Char) : Option ℕ :=
  if '0' ≤ c ∧ c ≤ '9' then some (c.toNat - '0'.toNat)
  else if 'a' ≤ c ∧ c ≤ 'f' then some (c.toNat - 'a'.toNat + 10)
  else if 'A' ≤ c ∧ c ≤ 'F' then some (c.toNat - 'A'.toNat + 10)
  else none

/-- Python `int(s, 16)` on the plain hex strings the source produces:
`none` (= `ValueError`) on the empty string or a non-hex character. -/
def hexVal? (s : String) : Option ℕ :=
  if s.data.isEmpty then none
  else s.data.foldl
    (fun acc c => acc.bind fun a => (hexDigitVal? c).map (fun d => 16 * a + d))
    (some 0)

/-- Byte sequence of a string (`.encode()`); the strings the source hashes
are ASCII, where UTF-8 bytes coincide with code points. -/
def strBytes (s : String) : List ℕ :=
  s.data.map Char.toNat

/-! ## Blocks (`bitcoin/data/block.py`) -/

/-- A PoW block: header plus the insertion-ordered `txid → transaction`
mapping. -/
structure PoWBlock where
  header : BlockHeader
  transactions : PyDict Transaction
deriving Repr, DecidableEq

/-- `PoWBlock.hash`: lowercase hex of the double SHA-256 of
`repr(self.header).encode()`. -/
def PoWBlock.hashHex (C : Crypto) (b : PoWBlock) : String :=
  bytesToHex (C.sha256 (C.sha256 (strBytes b.header.reprStr)))

/-- `int(self.header.target[2:], 16) * 256 ** (int(self.header.target[0:2], 16) - 3)`,
computed in `ℚ` (Python produces an exact `int` for exponent ≥ 3 and a float
below; the claims only exercise well-formed targets with exponent ≥ 3).
`none` models the `ValueError` on a malformed target string. -/
def targetValueOfStr (target : String) : Option ℚ :=
  match hexVal? (target.drop 2), hexVal? (target.take 2) with
  | some mantissa, some e => some ((mantissa : ℚ) * (256 : ℚ) ^ ((e : ℤ) - 3))
  | _, _ => none

/-- `PoWBlock.target_value`. -/
def PoWBlock.target_value (b : PoWBlock) : Option ℚ :=
  targetValueOfStr b.header.target

/-- `PoWBlock.outpoints`: `{txid: list(range(len(t.get("outputs", []))))}`. -/
def PoWBlock.outpoints (b : PoWBlock) : PyDict (List ℤ) :=
  b.transactions.map
    (fun p => (p.1, (List.range (p.2.outputs.getD []).length).map Int.ofNat))

/-! ### Merkle root (`PoWBlock.merkle_root`) -/

/-- One pairing level of the Merkle loop:
`[sha256(hashlist[i] + hashlist[i+1]) for i in range(0, len(hashlist), 2)]`.
On an odd-length level the comprehension reads `hashlist[i+1]` one past the
end, an `IndexError` modelled by `none`. -/
def pairLevel (C : Crypto) : List (List ℕ) → Option (List (List ℕ))
  | [] => some []
  | [_] => none
  | a :: b :: rest => (pairLevel C rest).map (fun hl => C.sha256 (a ++ b) :: hl)

/-- The `while len(hashlist) > 1` loop followed by `hashlist[0]`.  `fuel`
bounds the iteration count; each iteration halves the level length, so an
initial fuel of the list length can never be exhausted before the loop
exits (see `merkleLoop_fuel`). -/
def merkleLoop (C : Crypto) : ℕ → List (List ℕ) → Except Unit (List ℕ)
  | _, [h] => .ok h
  | _, [] => .error ()
  | 0, _ :: _ :: _ => .error ()
  | fuel + 1, h₁ :: h₂ :: rest =>
    match pairLevel C (h₁ :: h₂ :: rest) with
    | none => .error ()
    | some hl' => merkleLoop C fuel hl'

/-- `PoWBlock.merkle_root` on an ordered transaction list: duplicate the last
element when the count is odd, hash the leaves with
`sha256(json.dumps(t).encode())`, fold pairing levels, and render
`sha256(hashlist[0]).hexdigest()`. -/
def merkle_root (C : Crypto) (transactions : List Transaction) :
    Except Unit String :=
  let trs :=
    if transactions.length % 2 = 1 then
      transactions ++ transactions.getLast?.toList
    else transactions
  let hashlist := trs.map (fun t => C.sha256 (C.jsonDumpsTx t))
  match merkleLoop C hashlist.length hashlist with
  | .error () => .error ()
  | .ok h => .ok (bytesToHex (C.sha256 h))

/-! ## Blockchain (`bitcoin/data/blockchain.py`) -/

/-- `GENESIS_HASH`, the 64-zero sentinel. -/
def GENESIS_HASH : String :=
  "0000000000000000000000000000000000000000000000000000000000000000"

/-- The `UTXO` dataclass.  `block_id` is an `int` everywhere except in
`validate_chain`, where the Python loop variable `i` of
`for i, block in enumerate(...)` is shadowed by the inner
`for i in t.get("inputs", [])`, so entries created there for a block that
contains any input-bearing transaction store the block's *last input dict*
instead of the index; hence the sum type. -/
structure UTXO where
  v_outs : List ℤ
  block_id : ℕ ⊕ TxIn
deriving Repr, DecidableEq

/-- The `Blockchain` dataclass state: the block list and the UTXO set
(`reward` is only ever read as the class attribute `Blockchain.reward`,
modelled as the constant below). -/
structure Blockchain where
  blocks : List PoWBlock
  utxo_set : PyDict UTXO
deriving Repr, DecidableEq

/-- `Blockchain.reward = 3.125`. -/
def Blockchain.reward : ℚ := 3.125

/-- `Blockchain.last_hash`. -/
def Blockchain.last_hash (C : Crypto) (bc : Blockchain) : String :=
  match bc.blocks.getLast? with
  | some b => b.hashHex C
  | none => GENESIS_HASH

/-! ### `Blockchain.validate_transaction` -/

/-- Result of `validate_transaction`: an uncaught exception, `False`, or the
returned fee. -/
inductive TxResult where
  | err : TxResult
  | fail : TxResult
  | fee : ℚ → TxResult
deriving Repr, DecidableEq

/-- Early exits of the input loop: `.exn` for an exception, `.invalid` for
`return False`. -/
inductive VFail where
  | exn : VFail
  | invalid : VFail
deriving Repr, DecidableEq

/-- The lookup chain `self.blocks[utxo.block_id].transactions[i["tx_id"]]["outputs"][i["v_out"]]`
(the referenced output of an input whose outpoint is in the UTXO set). -/
def refOutput (bc : Blockchain) (u : UTXO) (i : TxIn) : Option TxOut :=
  match u.block_id with
  | Sum.inr _ => none
  | Sum.inl bid =>
    (bc.blocks.get? bid).bind fun blk =>
      (dictGet blk.transactions i.tx_id).bind fun rtx =>
        rtx.outputs.bind fun os => pyIndex os i.v_out

/-- The `for i in transaction.get("inputs")` loop of `validate_transaction`,
carrying the accumulators `total`, `data` and `inpairs`.  The
`f"{tx_id}:{v_out}"` outpoint strings are modelled as pairs (hex ids contain
no `:`, so the string form is injective on pairs). -/
def vtLoop (C : Crypto) (bc : Blockchain) :
    List TxIn → ℚ → List String → List (ℕ × ℤ) →
    Except VFail (ℚ × List String)
  | [], total, dataAcc, _ => .ok (total, dataAcc)
  | i :: rest, total, dataAcc, inpairs =>
    match C.load_pubkey i.key, C.load_signature i.signature with
    | some pub, some sig =>
      if (i.tx_id, i.v_out) ∈ inpairs then .error .invalid
      else
        match dictGet bc.utxo_set i.tx_id with
        | none => .error .invalid
        | some utxo =>
          if i.v_out ∉ utxo.v_outs then .error .invalid
          else
            match refOutput bc utxo i with
            | none => .error .exn
            | some txo =>
              if C.hash_pubkey pub ≠ txo.keyhash then .error .invalid
              else
                -- `if amount := tx.get("amount"):` — truthy only for a
                -- present, non-zero amount
                match txo.amount.bind (fun a => if a ≠ 0 then some a else none)
                with
                | some a =>
                  if C.verify pub sig (C.strOfAmount a) then
                    vtLoop C bc rest (total + a) dataAcc
                      (inpairs ++ [(i.tx_id, i.v_out)])
                  else .error .invalid
                | none =>
                  match txo.data with
                  | none => .error .exn  -- KeyError on `tx["data"]`
                  | some ds =>
                    if C.verify pub sig ds then
                      vtLoop C bc rest total (dataAcc ++ [ds])
                        (inpairs ++ [(i.tx_id, i.v_out)])
                    else .error .invalid
    | _, _ => .error .exn

/-- `Blockchain.validate_transaction`.  The Python default
`transaction.get("outputs", [{"amount": 0}])` contributes amount `0` and no
data strings, so the `none` branches below use those values directly.
`if t.get("data")` keeps only truthy (non-empty) data strings. -/
def validate_transaction (C : Crypto) (bc : Blockchain) (t : Transaction) :
    TxResult :=
  if t.version ≠ 1 then .fail
  else
    match t.inputs with
    | none => .err  -- `for i in None:` — TypeError
    | some inps =>
      match vtLoop C bc inps 0 [] [] with
      | .error .exn => .err
      | .error .invalid => .fail
      | .ok (total₀, dataAcc) =>
        let outAmtSum : ℚ :=
          match t.outputs with
          | none => 0
          | some os => (os.map (fun o => o.amount.getD 0)).sum
        let outs : List String :=
          match t.outputs with
          | none => []
          | some os => os.filterMap (fun o =>
              o.data.bind (fun s => if s ≠ "" then some s else none))
        let total := total₀ - outAmtSum
        if total < 0 then .fail
        else if dataAcc.any (fun s => ¬ outs.contains s) then .fail
        else .fee total

/-! ### `Blockchain.validate_block` -/

/-- The `for txid, t in block.transactions.items()` loop of
`validate_block`, carrying the `fee` and `total` accumulators.  Returns
`some (fee, total)` when the loop completes, `none` for an early
`return False`, `.error ()` for an exception. -/
def vbLoop (C : Crypto) (bc : Blockchain) :
    List (ℕ × Transaction) → ℚ → ℚ → Except Unit (Option (ℚ × ℚ))
  | [], fee, total => .ok (some (fee, total))
  | (txid, t) :: rest, fee, total =>
    if C.hash_transaction t ≠ txid then .ok none
    else if t.coinbase then
      -- `if t.get("coinbase") and (fee or len(t["outputs"]) != 1)`
      if fee ≠ 0 then .ok none
      else
        match t.outputs with
        | none => .error ()  -- KeyError on `t["outputs"]`
        | some os =>
          if os.length ≠ 1 then .ok none
          else
            match os.head?.bind (fun o => o.amount) with
            | none => .error ()  -- IndexError / KeyError on `["amount"]`
            | some a => vbLoop C bc rest a total
    else
      match validate_transaction C bc t with
      | .err => .error ()
      | .fail => .ok none  -- `is False`
      | .fee a => vbLoop C bc rest fee (total + a)

/-- `Blockchain.validate_block`. -/
def validate_block (C : Crypto) (bc : Blockchain) (block : PoWBlock)
    (difficulty last_hash : String) : Except Unit Bool :=
  if block.header.hash_parent ≠ last_hash then .ok false
  else if block.header.target ≠ difficulty then .ok false
  else
    match block.target_value, hexVal? (block.hashHex C) with
    | none, _ => .error ()  -- ValueError parsing the target
    | _, none => .error ()  -- (unreachable: the rendered hash is valid hex)
    | some tv, some hv =>
      if tv < (hv : ℚ) then .ok false
      else
        match vbLoop C bc block.transactions 0 0 with
        | .error () => .error ()
        | .ok none => .ok false
        | .ok (some (fee, total)) =>
          if fee ≠ total + Blockchain.reward then .ok false
          else .ok true

/-! ### `Blockchain.add_block` -/

/-- The buggy spent-removal pass shared by `add_block` (lines 116–122) and
`validate_chain` (lines 335–341): subtract the spent `v_outs`, then
`if len(self.utxo_set[txid].v_outs): self.utxo_set.pop(txid)` — i.e. the
entry is popped when the remainder is NON-empty and an emptied entry is kept. -/
def spentRemoval (spent : PyDict (List ℤ)) (utxo : PyDict UTXO) :
    PyDict UTXO :=
  spent.foldl
    (fun acc p =>
      match dictGet acc p.1 with
      | none => acc
      | some u =>
        let newVouts := pySetDiff u.v_outs p.2
        let acc' := dictSet acc p.1 { u with v_outs := newVouts }
        if newVouts.length ≠ 0 then dictPop acc' p.1 else acc')
    utxo

/-- `spent` accumulation for one transaction:
`for i in t.get("inputs"): spent.setdefault(i["tx_id"], []).append(i["v_out"])`. -/
def accumSpent (spent : PyDict (List ℤ)) (inps : List TxIn) :
    PyDict (List ℤ) :=
  inps.foldl (fun acc i => dictSetdefaultAppend acc i.tx_id i.v_out) spent

/-- The per-transaction loop of `add_block`, threading `spent`, the pool and
the UTXO set.  Note that in the source the spent-removal pass sits INSIDE
the transaction loop, so it runs once per non-coinbase transaction over the
whole accumulated `spent` dict. -/
def addBlockLoop (C : Crypto) (hashes : PyDict ℕ) :
    List (ℕ × Transaction) → PyDict (List ℤ) → List Transaction →
    PyDict UTXO → Except Unit (List Transaction × PyDict UTXO)
  | [], _, pool, utxo => .ok (pool, utxo)
  | (txid, t) :: rest, spent, pool, utxo =>
    if t.coinbase then addBlockLoop C hashes rest spent pool utxo
    else
      match t.inputs with
      | none => .error ()  -- `for i in None:` — TypeError
      | some inps =>
        let spent' := accumSpent spent inps
        match
          (match dictGet hashes txid with
           | some idx => pyPopAt pool idx
           | none => some pool)
        with
        | none => .error ()  -- IndexError on a stale pool index
        | some pool' =>
          addBlockLoop C hashes rest spent' pool' (spentRemoval spent' utxo)

/-- `Blockchain.add_block`: append the block, drop its transactions from the
pool, run the (buggy) spent-removal pass, then register the block's
outpoints with `block_id = len(self.blocks) - 1`. -/
def add_block (C : Crypto) (bc : Blockchain) (block : PoWBlock)
    (pool : List Transaction) : Except Unit (Blockchain × List Transaction) :=
  let blocks' := bc.blocks ++ [block]
  let hashes : PyDict ℕ :=
    (pool.enum.map (fun p => (C.hash_transaction p.2, p.1))).foldl
      (fun acc p => dictSet acc p.1 p.2) []
  match addBlockLoop C hashes block.transactions [] pool bc.utxo_set with
  | .error () => .error ()
  | .ok (pool', utxo') =>
    let utxo'' := block.outpoints.foldl
      (fun acc p =>
        dictSet acc p.1 ⟨p.2, Sum.inl (blocks'.length - 1)⟩)
      utxo'
    .ok ({ blocks := blocks', utxo_set := utxo'' }, pool')

/-! ### `Blockchain.validate_chain` -/

/-- All inputs of a block's transactions in iteration order
(`t.get("inputs", [])` yields `[]` for a missing field).  Its last element
is the value the leaked loop variable `i` holds when the block's outpoints
are registered. -/
def blockInputs (b : PoWBlock) : List TxIn :=
  b.transactions.flatMap (fun p => p.2.inputs.getD [])

/-- The `for i, block in enumerate(self.blocks[1:], start=1)` loop: validate
each block against its own target and the previous block's hash, then
rebuild the UTXO set with the shared (buggy) spent-removal pass.  The
`block_id` stored for the block's outpoints is the leaked `i`: the block's
last input dict when one exists, the index otherwise. -/
def chainLoop (C : Crypto) (allBlocks : List PoWBlock) :
    List PoWBlock → ℕ → PoWBlock → PyDict UTXO →
    Except Unit (Bool × PyDict UTXO)
  | [], _, _, utxo => .ok (true, utxo)
  | b :: rest, i, prev, utxo =>
    match validate_block C ⟨allBlocks, utxo⟩ b b.header.target
        (prev.hashHex C) with
    | .error () => .error ()
    | .ok false => .ok (false, utxo)
    | .ok true =>
      let spent := accumSpent [] (blockInputs b)
      let utxo' := spentRemoval spent utxo
      let bid : ℕ ⊕ TxIn :=
        match (blockInputs b).getLast? with
        | some inp => Sum.inr inp
        | none => Sum.inl i
      let utxo'' := b.outpoints.foldl
        (fun acc p => dictSet acc p.1 ⟨p.2, bid⟩) utxo'
      chainLoop C allBlocks rest (i + 1) b utxo''

/-- Seeding `self.utxo_set` from the genesis block's outpoints (the set is
NOT cleared first; pre-existing entries persist). -/
def seedGenesis (utxo : PyDict UTXO) (b : PoWBlock) : PyDict UTXO :=
  b.outpoints.foldl (fun acc p => dictSet acc p.1 ⟨p.2, Sum.inl 0⟩) utxo

/-- `Blockchain.validate_chain`: an empty chain is valid; the genesis
block's `validate_block` result is computed and DISCARDED (only exceptions
propagate); then the per-block loop runs from index 1.  Returns the verdict
together with the final `utxo_set`. -/
def validate_chain (C : Crypto) (bc : Blockchain) :
    Except Unit (Bool × PyDict UTXO) :=
  match bc.blocks with
  | [] => .ok (true, bc.utxo_set)
  | b₀ :: rest =>
    match validate_block C bc b₀ b₀.header.target GENESIS_HASH with
    | .error () => .error ()
    | .ok _ =>
      chainLoop C bc.blocks rest 1 b₀ (seedGenesis bc.utxo_set b₀)

/-! ## Coordinator (`bitcoin/interface/interface.py`, `bitcoin/interface/daemon.py`)

### IEEE-754 model of `0.51 * len(self.nodes)`

The acceptance test of `Interface.mine` compares the integer vote sum
against the Python float product `0.51 * len(self.nodes)`.  CPython
evaluates it as: convert the `int` to the nearest IEEE-754 double
(round-to-nearest, ties-to-even), multiply by the double nearest `0.51`,
round the exact product once, and compare the resulting double to the
integer sum EXACTLY (Python int/float comparison is exact).  Doubles are
dyadic rationals, so the whole computation is modelled precisely below with
integer arithmetic; only the double's exponent range is not modelled
(`OverflowError`/infinity would need a node count beyond `~1.8·10^308`). -/

/-- Number of binary digits of `m` (0 for 0), by structural fuel recursion
so that concrete values reduce in the kernel. -/
def bitLenAux : ℕ → ℕ → ℕ
  | 0, _ => 0
  | fuel + 1, m => if m = 0 then 0 else bitLenAux fuel (m / 2) + 1

/-- `bitLen m = ⌊log₂ m⌋ + 1` for `m ≥ 1`. -/
def bitLen (m : ℕ) : ℕ := bitLenAux m m

/-- Round the dyadic rational `m · 2^e` to 53 significant bits,
round-to-nearest with ties-to-even: the IEEE-754 double rounding of a
positive value, with unbounded exponent range. -/
def roundSig53 (m : ℕ) (e : ℤ) : ℕ × ℤ :=
  if m < 2 ^ 53 then (m, e)
  else
    let shift := bitLen m - 53
    let q := m / 2 ^ shift
    let r := m % 2 ^ shift
    let half := 2 ^ (shift - 1)
    let q' :=
      if half < r then q + 1
      else if r < half then q
      else if q % 2 = 0 then q else q + 1
    (q', e + shift)

/-- Significand of the IEEE-754 double nearest to `0.51`: the float literal
`0.51` denotes `4593671619917906 · 2^-53` (`= 0.51 + 0.08·2^-53`). -/
def fl051sig : ℕ := 4593671619917906

/-- The double value of `0.51 * n` for a Python `int` `n`: convert `n` to
a double, multiply exact significands, round once. -/
def float051MulNat (n : ℕ) : ℕ × ℤ :=
  let nf := roundSig53 n 0
  roundSig53 (fl051sig * nf.1) (nf.2 - 53)

/-- Exact rational value of a dyadic `m · 2^e`. -/
def dyadicToRat (p : ℕ × ℤ) : ℚ :=
  if 0 ≤ p.2 then (p.1 : ℚ) * 2 ^ p.2.toNat else (p.1 : ℚ) / 2 ^ (-p.2).toNat

/-- The exact value of the Python float `0.51 * numNodes`. -/
def pyMul051 (numNodes : ℕ) : ℚ := dyadicToRat (float051MulNat numNodes)

/-- `math.floor(math.log(k, 4))` computed exactly: the integer logarithm
(structural fuel recursion so that concrete values reduce in the kernel;
`log4floor k = Nat.log 4 k`, proved below).  The C library's float
logarithm is a platform-dependent external call; `log4floor` is the
reference instance used to instantiate it at arguments where lib-m is
exact (small arguments and exact powers of four).  The float value is
known to drift from the exact one elsewhere, first observed at
`k = 4^24 - 1`. -/
def log4floorAux : ℕ → ℕ → ℕ
  | 0, _ => 0
  | fuel + 1, k => if k < 4 then 0 else 1 + log4floorAux fuel (k / 4)

/-- `⌊log_4 k⌋` (0 for `k = 0`). -/
def log4floor (k : ℕ) : ℕ := log4floorAux k k

/-- `Interface.difficulty`:
`diff = hex(32 - (base_difficulty + floor(log(len(nodes) + 1, 4))))` with
`base_difficulty = 2`, then `f"0{diff[2:]}ffffff"` when `len(diff) == 3`
else `f"{diff[2:]}ffffff"`.  `math.floor(math.log(·, 4))` is an external
C-library float computation with platform-dependent rounding; like the
crypto primitives it is taken as a parameter `flog`. -/
def difficulty (flog : ℕ → ℕ) (numNodes : ℕ) : String :=
  let diff := pyHex (32 - (2 + (flog (numNodes + 1) : ℤ)))
  if diff.length = 3 then "0" ++ diff.drop 2 ++ "ffffff"
  else diff.drop 2 ++ "ffffff"

/-- The three verdict branches of `Interface.mine` for one queued solution. -/
inductive Verdict where
  | accepted : Verdict
  | finalReject : Verdict
  | continueVote : Verdict
deriving Repr, DecidableEq

/-- The verdict evaluation in `Interface.mine` once `voting_over` fires:
`if sum(self.consensus) >= 0.51 * len(self.nodes)` accept (broadcast
`{"type": "veredict", "block": solution}` and append the block);
`elif i + 1 == len(self.solutions)` give up (`final: True`); else move to
the next queued solution (`final: False`).  Votes are the `int(...)` values
appended by the daemon; the float product is modelled exactly by
`pyMul051` and the int/float comparison is exact in Python. -/
def mineVerdict (consensus : List ℤ) (numNodes solutionIdx queueLen : ℕ) :
    Verdict :=
  if (pyMul051 numNodes ≤ (consensus.sum : ℚ)) then .accepted
  else if solutionIdx + 1 = queueLen then .finalReject
  else .continueVote

/-- `InterfaceDaemon.voting_finished`. -/
def voting_finished (consensus : List ℤ) (numNodes : ℕ) : Bool :=
  consensus.length = numNodes ∨ pyMul051 numNodes ≤ (consensus.sum : ℚ)

/-- The coordinator's `case "chain"` handler
(`InterfaceDaemon.handle_connection`): build a fresh `Blockchain` from the
payload (empty UTXO set); only when the remote chain is STRICTLY longer,
replace the local chain if the remote validates, and broadcast either way.
Returns the new local chain and whether a broadcast happened; `.error ()`
models an exception escaping to the connection handler. -/
def handleChain (C : Crypto) (localBc : Blockchain)
    (remoteBlocks : List PoWBlock) : Except Unit (Blockchain × Bool) :=
  let remote : Blockchain := ⟨remoteBlocks, []⟩
  if remoteBlocks.length > localBc.blocks.length then
    match validate_chain C remote with
    | .error () => .error ()
    | .ok (true, utxo') => .ok (⟨remoteBlocks, utxo'⟩, true)
    | .ok (false, _) => .ok (localBc, true)
  else .ok (localBc, false)

/-! ## Spec-side definitions

These definitions transcribe the wording of the specification/claims; they
are compared against the source embeddings above. -/

/-- Whether repeatedly halving reaches 1 without ever passing through an odd
count greater than 1 (equivalently, whether `n` is a power of two). -/
def halvesEvenlyAux : ℕ → ℕ → Bool
  | 0, _ => false
  | fuel + 1, n =>
    if n = 1 then true
    else if n = 0 ∨ n % 2 = 1 then false
    else halvesEvenlyAux fuel (n / 2)

/-- `halvesEvenly n`: the leaf count `n` halves down to 1 staying even. -/
def halvesEvenly (n : ℕ) : Bool := halvesEvenlyAux n n

/-- Leaf count after the odd-tail duplication of `merkle_root`. -/
def paddedLen (transactions : List Transaction) : ℕ :=
  transactions.length + transactions.length % 2

/-- Spec side of C6: the zero-padded two-character lowercase hex form of an
exponent byte. -/
def zeroPad2 (s : String) : String :=
  if s.length = 1 then "0" ++ s else s

/-- Spec side of C6: the compact difficulty string as §4.6 words it for a
floor-log value `ℓ` — the zero-padded lowercase hex of the exponent
`e = 32 - (2 + ℓ)` followed by the mantissa `ffffff`. -/
def specDifficulty (ℓ : ℕ) : String :=
  zeroPad2 (natHexStr (32 - (2 + ℓ))) ++ "ffffff"

/-- Spec side of C7: the amount carried by the output an input references
(0 for a data-carrying referenced output), via the same UTXO lookup the
validator performs. -/
def refAmount (bc : Blockchain) (i : TxIn) : ℚ :=
  match dictGet bc.utxo_set i.tx_id with
  | none => 0
  | some u => (((refOutput bc u i).bind (fun o => o.amount)).getD 0)

/-- Spec side of C7: `in_amount = Σ amount` over the referenced outputs. -/
def specInAmount (bc : Blockchain) (t : Transaction) : ℚ :=
  ((t.inputs.getD []).map (refAmount bc)).sum

/-- Spec side of C7: `out_amount = Σ amount` over the transaction's own
outputs. -/
def specOutAmount (t : Transaction) : ℚ :=
  ((t.outputs.getD []).map (fun o => o.amount.getD 0)).sum

/-- Spec side of C2: the amount of a (single-output) coinbase transaction —
its first output's `amount` field. -/
def coinbaseAmount (t : Transaction) : Option ℚ :=
  (t.outputs.bind List.head?).bind (fun o => o.amount)

/-- Spec side of C2: the fee `validate_transaction` reports, defaulting to 0
off the `.fee` branch. -/
def extractFee : TxResult → ℚ
  | .fee f => f
  | _ => 0

/-- Spec side of C6: an 8-character lowercase-hex string. -/
def isHex8 (s : String) : Bool :=
  s.length = 8 ∧ s.data.all (fun c => (hexDigitVal? c).isSome)

/-! ## Concrete instances

A concrete `Crypto` instance and concrete chains used to evaluate the
embeddings on explicit inputs.  The spec treats the hash/signature
primitives as an assumed external capability, so counterexamples and
witnesses about the surrounding control flow may fix them to any concrete
functions; `testCrypto` picks trivially computable ones (constant digest,
identity key handling, accepting verifier). -/

/-- Concrete crypto instance for evaluation. -/
def testCrypto : Crypto where
  sha256 := fun _ => List.replicate 32 0
  jsonDumpsTx := fun _ => []
  hash_transaction := fun t =>
    match (t.outputs.getD []).head? with
    | some o => o.keyhash
    | none => 0
  load_pubkey := some
  load_signature := some
  hash_pubkey := id
  verify := fun _ _ _ => true
  strOfAmount := fun _ => ""

/-- A genesis-shaped block with no transactions: its parent is
`GENESIS_HASH` and its target parses, but it has no coinbase, so
`validate_block` returns `False` on it. -/
def emptyGenesis : PoWBlock :=
  ⟨⟨1, GENESIS_HASH, "m", 0, "1effffff", 0⟩, []⟩

/-- C7/P4 fixture: a block holding one coinbase with a single 10000-amount
output owned by keyhash 77. -/
def coinBlock : PoWBlock :=
  ⟨⟨1, GENESIS_HASH, "m", 0, "1effffff", 0⟩,
   [(100, ⟨1, none, some [⟨some 10000, none, 77⟩], true⟩)]⟩

/-- C7/P4 fixture: the chain owning outpoint `(100, 0)`. -/
def bcP4 : Blockchain := ⟨[coinBlock], [(100, ⟨[0], Sum.inl 0⟩)]⟩

/-- C7/P4 fixture: a transaction spending `(100, 0)` (amount 10000) into
outputs of 1000 and 8999. -/
def spendP4 : Transaction :=
  ⟨1, some [⟨100, 0, 77, 5⟩],
   some [⟨some 1000, none, 8⟩, ⟨some 8999, none, 9⟩], false⟩

/-- C2 fixture: a block containing TWO coinbase transactions, the first with
single-output amount 0 and the second with single-output amount 3.125. -/
def twoCoinbaseBlock : PoWBlock :=
  ⟨⟨1, "p", "m", 0, "1effffff", 0⟩,
   [(1, ⟨1, none, some [⟨some 0, none, 1⟩], true⟩),
    (2, ⟨1, none, some [⟨some 3.125, none, 2⟩], true⟩)]⟩

/-- C1 fixture: chain whose UTXO set holds outpoint `(10, 0)`. -/
def bcSpend : Blockchain :=
  ⟨[⟨⟨1, GENESIS_HASH, "m", 0, "1effffff", 0⟩,
     [(10, ⟨1, none, some [⟨some 5, none, 3⟩], true⟩)]⟩],
   [(10, ⟨[0], Sum.inl 0⟩)]⟩

/-- C1 fixture: a block spending `(10, 0)` — the only `v_out` of entry 10 —
so the spent-removal pass empties that entry's `v_outs`. -/
def spendingBlock : PoWBlock :=
  ⟨⟨1, "q", "m", 0, "1effffff", 1⟩,
   [(20, ⟨1, some [⟨10, 0, 3, 9⟩], some [⟨some 5, none, 4⟩], false⟩)]⟩

/-- C4 fixture: a two-block local chain whose second block has a wrong
parent hash, so `validate_chain` reports it invalid. -/
def invalidLocal : Blockchain :=
  ⟨[emptyGenesis, ⟨⟨1, "x", "m", 0, "1effffff", 0⟩, []⟩], []⟩

/-- C5/C9 fixture: three transactions. -/
def threeTxs : List Transaction :=
  [⟨1, none, none, false⟩, ⟨2, none, none, false⟩, ⟨3, none, none, false⟩]

/-- Decidable equality of `Except` results, for evaluating the embeddings on
concrete inputs. -/
instance {ε α : Type _} [DecidableEq ε] [DecidableEq α] :
    DecidableEq (Except ε α) := fun x y =>
  match x, y with
  | .ok a, .ok b =>
    if h : a = b then .isTrue (by rw [h]) else
      .isFalse (fun hh => h (Except.ok.inj hh))
  | .error a, .error b =>
    if h : a = b then .isTrue (by rw [h]) else
      .isFalse (fun hh => h (Except.error.inj hh))
  | .ok _, .error _ => .isFalse (fun hh => Except.noConfusion hh)
  | .error _, .ok _ => .isFalse (fun hh => Except.noConfusion hh)

/-! ## Evaluation lemmas for the concrete instances -/

/-- The compact target `1effffff` parses to `0xffffff · 256^27`. -/
lemma tv_1effffff : targetValueOfStr "1effffff" =
    some ((16777215 : ℚ) * 256 ^ ((30 : ℤ) - 3)) := by
  have h1 : hexVal? (("1effffff" : String).drop 2) = some 16777215 := by decide
  have h2 : hexVal? (("1effffff" : String).take 2) = some 30 := by decide
  simp [targetValueOfStr, h1, h2]

/-- `target_value` of any block whose target is `1effffff`. -/
lemma target_value_1e (b : PoWBlock) (h : b.header.target = "1effffff") :
    b.target_value = some ((16777215 : ℚ) * 256 ^ ((30 : ℤ) - 3)) := by
  rw [PoWBlock.target_value, h, tv_1effffff]

/-- Every block hash under `testCrypto` renders as the all-zero digest. -/
lemma hashHex_testCrypto (b : PoWBlock) :
    b.hashHex testCrypto = GENESIS_HASH := rfl

/-- Numeric value of the `testCrypto` block hash. -/
lemma hash_testCrypto (b : PoWBlock) :
    hexVal? (b.hashHex testCrypto) = some 0 := by
  rw [hashHex_testCrypto]; decide

/-- Numeric value of the genesis sentinel string. -/
lemma hexVal_genesis :
    hexVal? "0000000000000000000000000000000000000000000000000000000000000000" =
      some 0 := by decide

/-- `testCrypto` transaction ids: the first output's keyhash. -/
lemma testCrypto_hashTx (t : Transaction) :
    testCrypto.hash_transaction t =
      match (t.outputs.getD []).head? with
      | some o => o.keyhash
      | none => 0 := rfl

/-! ## General lemmas -/

/-- On a vote list of 0/1 entries the sum is the number of 1-votes. -/
lemma sum_eq_count_one (votes : List ℤ)
    (h : ∀ v ∈ votes, v = 0 ∨ v = 1) :
    votes.sum = votes.count 1 := by
  induction votes with
  | nil => simp
  | cons v rest ih =>
    have hv := h v (List.mem_cons_self v rest)
    have hrest := ih (fun w hw => h w (List.mem_cons_of_mem v hw))
    rcases hv with h0 | h1
    · subst h0
      simp [List.count_cons, hrest]
    · subst h1
      simp [List.count_cons, hrest, add_comm]

/-! ## C8 — `validate_transaction` raises on a missing `inputs` field -/

/-- C8: the spec promises that `validate_transaction` never raises and that
`inputs` is optional, but on a version-1 transaction with no `inputs` field
the source iterates `transaction.get("inputs")`, i.e. `None`, raising
`TypeError` — for every crypto capability and every chain state. -/
theorem validate_transaction_raises_on_missing_inputs
    (C : Crypto) (bc : Blockchain) :
    validate_transaction C bc ⟨1, none, none, false⟩ = .err := by
  simp [validate_transaction]

/-! ## C1 — the UTXO set keeps entries whose `v_outs` emptied -/

/-- C1: after `add_block` appends a block that spends the only `v_out` of
UTXO entry 10, the entry is still present with an EMPTY `v_outs` list
(`if len(...): pop` is inverted: the source pops entries whose remainder is
non-empty and keeps emptied ones), contradicting the claimed invariant. -/
theorem add_block_keeps_empty_utxo_entry :
    (add_block testCrypto bcSpend spendingBlock []).map
      (fun r => dictGet r.1.utxo_set 10) =
    .ok (some ⟨[], Sum.inl 0⟩) := by decide

/-! ## C5 — Merkle root is NOT invariant under doubling the list -/

/-- C5 counterexample: for the three-element list `threeTxs` the doubled
list has six leaves, whose second level has odd length 3, so the pairing
loop raises `IndexError` while `merkle_root threeTxs` returns a root; the
two sides differ. -/
theorem merkle_root_doubling_fails :
    merkle_root testCrypto (threeTxs ++ threeTxs) = .error () ∧
    merkle_root testCrypto threeTxs ≠
      merkle_root testCrypto (threeTxs ++ threeTxs) := by
  constructor
  · decide
  · decide

/-- C5 amended: doubling invariance does hold for singleton lists — the
case the repository test exercises — because the odd-tail duplication turns
`[t]` into `[t, t]`, for every crypto capability. -/
theorem merkle_root_doubling_singleton (C : Crypto) (t : Transaction) :
    merkle_root C ([t] ++ [t]) = merkle_root C [t] := by
  simp [merkle_root]

/-! ## C3 — verdict rule of `Interface.mine` -/

set_option maxRecDepth 10000 in
/-- C3 counterexample: the acceptance test compares the vote sum against
the IEEE double `0.51 * len(nodes)`, not the exact rational.  At
`|nodes| = 300000000000051` the double product rounds down to exactly
`153000000000026`, so a consensus of `153000000000026` 1-votes is accepted
although it is one short of the claimed `⌈0.51 · |nodes|⌉ =
153000000000027`. -/
theorem mineVerdict_beats_exact_ceiling :
    (∀ v ∈ List.replicate 153000000000026 (1 : ℤ), v = 0 ∨ v = 1) ∧
    mineVerdict (List.replicate 153000000000026 (1 : ℤ))
      300000000000051 0 1 = .accepted ∧
    ((List.replicate 153000000000026 (1 : ℤ)).count 1 : ℤ) <
      ⌈(0.51 : ℚ) * (300000000000051 : ℕ)⌉ := by
  refine ⟨?_, ?_, ?_⟩
  · intro v hv
    exact Or.inr (List.eq_of_mem_replicate hv)
  · have hdy : float051MulNat 300000000000051 = (4896000000000832, -5) := by
      decide
    have hval : pyMul051 300000000000051 = 153000000000026 := by
      rw [pyMul051, hdy, dyadicToRat]
      norm_num
      rw [show Int.toNat 5 = 5 from rfl]
      norm_num
    have hgen : ∀ k : ℕ, (List.replicate k (1 : ℤ)).sum = (k : ℤ) := by
      intro k
      simp [List.sum_replicate]
    rw [mineVerdict, hval, hgen 153000000000026,
      if_pos (by push_cast; norm_num)]
  · have hcnt : ∀ k : ℕ, (List.replicate k (1 : ℤ)).count 1 = k := by
      intro k
      simp
    rw [hcnt 153000000000026]
    refine Int.lt_ceil.mpr ?_
    push_cast
    norm_num

/-- C3 amended: with 0/1 votes, the acceptance test
`sum(consensus) >= 0.51 * len(nodes)` of `Interface.mine` holds exactly
when the number of 1-votes reaches the ceiling of the IEEE-double product
`0.51 * numNodes` the code computes — taken over the live node count,
independent of how many votes were received.  (That ceiling coincides with
`⌈0.51 · numNodes⌉` at ordinary node counts but can fall one below it,
as the counterexample shows.) -/
theorem mineVerdict_accept_iff (votes : List ℤ)
    (numNodes solutionIdx queueLen : ℕ)
    (h : ∀ v ∈ votes, v = 0 ∨ v = 1) :
    mineVerdict votes numNodes solutionIdx queueLen = .accepted ↔
      ⌈pyMul051 numNodes⌉ ≤ (votes.count 1 : ℤ) := by
  have hsum : votes.sum = votes.count 1 := sum_eq_count_one votes h
  rw [mineVerdict]
  constructor
  · intro hacc
    by_cases hc : pyMul051 numNodes ≤ (votes.sum : ℚ)
    · rw [← hsum]
      exact Int.ceil_le.mpr (by exact_mod_cast hc)
    · rw [if_neg hc] at hacc
      by_cases hq : solutionIdx + 1 = queueLen
      · rw [if_pos hq] at hacc; cases hacc
      · rw [if_neg hq] at hacc; cases hacc
  · intro hceil
    have hc : pyMul051 numNodes ≤ (votes.sum : ℚ) := by
      rw [hsum]
      exact_mod_cast Int.ceil_le.mp hceil
    rw [if_pos hc]

/-- C3 amended witness: two 1-votes out of three live nodes (only two
votes received) reach the ceiling of the double `0.51 * 3` and the block
is accepted. -/
theorem mineVerdict_accept_iff_witness :
    mineVerdict [1, 1] 3 0 1 = .accepted := by
  refine (mineVerdict_accept_iff [1, 1] 3 0 1 ?_).mpr ?_
  · intro v hv
    simp at hv
    exact Or.inr hv
  · have hc : (List.count (1 : ℤ) [1, 1]) = 2 := rfl
    rw [hc]
    refine Int.ceil_le.mpr ?_
    have hdy : float051MulNat 3 = (6890507429876859, -52) := by decide
    have hval : pyMul051 3 = (6890507429876859 : ℚ) / 2 ^ 52 := by
      rw [pyMul051, hdy, dyadicToRat]
      norm_num
      rw [show Int.toNat 52 = 52 from rfl]
      norm_num
    rw [hval]
    push_cast
    norm_num

/-! ## C9 — partiality of `merkle_root` -/

/-- A successful pairing level consumes an even number of hashes, two per
output entry. -/
lemma pairLevel_some (C : Crypto) :
    ∀ (hl hl' : List (List ℕ)), pairLevel C hl = some hl' →
      hl.length = 2 * hl'.length
  | [], hl', h => by
    simp only [pairLevel, Option.some.injEq] at h
    subst h
    simp
  | [a], hl', h => by simp [pairLevel] at h
  | a :: b :: rest, hl', h => by
    simp only [pairLevel, Option.map_eq_some'] at h
    obtain ⟨l', hrec, rfl⟩ := h
    have hlen := pairLevel_some C rest l' hrec
    simp only [List.length_cons, hlen]
    ring

/-- The fuel argument of `halvesEvenlyAux` is irrelevant once it covers the
input. -/
lemma halvesEvenlyAux_eq (n : ℕ) :
    ∀ f, n ≤ f → halvesEvenlyAux f n = halvesEvenly n := by
  induction n using Nat.strong_induction_on with
  | _ n ih =>
    intro f hf
    match n, hf with
    | 0, hf =>
      cases f with
      | zero => rfl
      | succ f' => simp [halvesEvenlyAux, halvesEvenly]
    | n' + 1, hf =>
      cases f with
      | zero => omega
      | succ f'' =>
        rw [halvesEvenly, halvesEvenlyAux, halvesEvenlyAux]
        by_cases h1 : n' + 1 = 1
        · simp [h1]
        · simp only [if_neg h1]
          by_cases h2 : n' + 1 = 0 ∨ (n' + 1) % 2 = 1
          · simp only [if_pos h2]
          · simp only [if_neg h2]
            have hlt : (n' + 1) / 2 < n' + 1 := Nat.div_lt_self (by omega) (by omega)
            have hle1 : (n' + 1) / 2 ≤ f'' := by omega
            have hle2 : (n' + 1) / 2 ≤ n' := by omega
            rw [ih ((n' + 1) / 2) hlt f'' hle1, ih ((n' + 1) / 2) hlt n' hle2]

/-- Doubling preserves the even-halving property. -/
lemma halvesEvenly_double (n : ℕ) (h : 1 ≤ n) :
    halvesEvenly (2 * n) = halvesEvenly n := by
  obtain ⟨f, hf⟩ : ∃ f, 2 * n = f + 1 := ⟨2 * n - 1, by omega⟩
  rw [halvesEvenly, hf, halvesEvenlyAux]
  have h1 : ¬ f + 1 = 1 := by omega
  have h2 : ¬ (f + 1 = 0 ∨ (f + 1) % 2 = 1) := by omega
  rw [if_neg h1, if_neg h2]
  have hdiv : (f + 1) / 2 = n := by omega
  rw [hdiv]
  exact halvesEvenlyAux_eq n f (by omega)

/-- Whenever the Merkle pairing loop returns a root hash, the level length
it started from halves down to 1 through even values only. -/
lemma merkleLoop_ok (C : Crypto) :
    ∀ (fuel : ℕ) (hl : List (List ℕ)) (h : List ℕ),
      merkleLoop C fuel hl = .ok h → halvesEvenly hl.length = true
  | _, [h'], h, _ => rfl
  | fuel, [], h, heq => by simp [merkleLoop] at heq
  | 0, a :: b :: rest, h, heq => by simp [merkleLoop] at heq
  | fuel + 1, a :: b :: rest, h, heq => by
    rw [merkleLoop] at heq
    cases hp : pairLevel C (a :: b :: rest) with
    | none => rw [hp] at heq; cases heq
    | some hl' =>
      rw [hp] at heq
      have hh := merkleLoop_ok C fuel hl' h heq
      have hlen := pairLevel_some C _ _ hp
      rw [hlen]
      have h1 : 1 ≤ hl'.length := by
        simp only [List.length_cons] at hlen
        omega
      rw [halvesEvenly_double hl'.length h1]
      exact hh

/-- The balanced leaf list of `merkle_root` has length `paddedLen`. -/
lemma merkle_trs_length (L : List Transaction) :
    (if L.length % 2 = 1 then L ++ L.getLast?.toList else L).length =
      paddedLen L := by
  by_cases h : L.length % 2 = 1
  · have hne : L ≠ [] := by
      intro he
      subst he
      simp at h
    obtain ⟨x, hx⟩ : ∃ x, L.getLast? = some x :=
      ⟨L.getLast hne, List.getLast?_eq_getLast L hne⟩
    simp [h, hx, paddedLen]
  · have h0 : L.length % 2 = 0 := by omega
    simp [h, paddedLen, h0]

/-- C9: `merkle_root` is partial — on any six-transaction list the second
tree level has odd length 3 and the pairing loop reads past the end
(`IndexError`), and in general a root is returned only when the padded leaf
count halves down to 1 without passing through an odd length greater
than 1. -/
theorem merkle_root_six_raises (C : Crypto) (L : List Transaction) :
    (L.length = 6 → ∀ r, merkle_root C L ≠ .ok r) ∧
    (∀ r, merkle_root C L = .ok r → halvesEvenly (paddedLen L) = true) := by
  have main : ∀ r, merkle_root C L = .ok r →
      halvesEvenly (paddedLen L) = true := by
    intro r h
    rw [merkle_root] at h
    set trs := if L.length % 2 = 1 then L ++ L.getLast?.toList else L with htrs
    set hashlist := trs.map (fun t => C.sha256 (C.jsonDumpsTx t)) with hhl
    cases heq : merkleLoop C hashlist.length hashlist with
    | error e => rw [heq] at h; cases h
    | ok root =>
      have hh := merkleLoop_ok C hashlist.length hashlist root heq
      have hlen : hashlist.length = paddedLen L := by
        rw [hhl, List.length_map, htrs]
        exact merkle_trs_length L
      rwa [hlen] at hh
  refine ⟨?_, main⟩
  intro h6 r hok
  have hmain := main r hok
  rw [paddedLen, h6] at hmain
  exact absurd hmain (by decide)

/-- C9 witness: the six-transaction list `threeTxs ++ threeTxs` yields no
root, while `threeTxs` itself (padded to 4 leaves) does. -/
theorem merkle_root_six_raises_witness :
    (∀ r, merkle_root testCrypto (threeTxs ++ threeTxs) ≠ .ok r) ∧
    halvesEvenly (paddedLen threeTxs) = true :=
  ⟨(merkle_root_six_raises testCrypto (threeTxs ++ threeTxs)).1 (by decide),
   (merkle_root_six_raises testCrypto threeTxs).2 GENESIS_HASH (by decide)⟩

/-! ## C6 — adaptive difficulty -/

/-- `log4floor` computes the exact `Nat.log 4`. -/
lemma log4floorAux_eq (k : ℕ) :
    ∀ f, k ≤ f → log4floorAux f k = Nat.log 4 k := by
  induction k using Nat.strong_induction_on with
  | _ k ih =>
    intro f hf
    cases f with
    | zero =>
      have hk : k = 0 := by omega
      subst hk
      simp [log4floorAux]
    | succ f' =>
      rw [log4floorAux]
      by_cases h4 : k < 4
      · rw [if_pos h4, Nat.log_of_lt h4]
      · rw [if_neg h4]
        have hk4 : 4 ≤ k := by omega
        have hdiv : k / 4 < k := Nat.div_lt_self (by omega) (by omega)
        rw [ih (k / 4) hdiv f' (by omega),
          Nat.log_of_one_lt_of_le (by norm_num) hk4]
        omega

/-- `log4floor` agrees with `Nat.log 4`. -/
lemma log4floor_eq_log (k : ℕ) : log4floor k = Nat.log 4 k :=
  log4floorAux_eq k k le_rfl

/-- C6 counterexample: the claim's format statement fails in general — at
`|nodes| = 4^31 - 1` the exponent `32 - (2 + 31)` is negative, `hex()`
renders `-0x1`, and the slicing produces `"x1ffffff"`, which is not an
8-hex-character string at all.  The library log is instantiated with the
exact `log4floor`, with which it agrees at the exact power `4^31`. -/
theorem difficulty_breaks_at_huge_count :
    difficulty log4floor (4 ^ 31 - 1) = "x1ffffff" ∧
    isHex8 (difficulty log4floor (4 ^ 31 - 1)) = false := by
  constructor
  · decide
  · decide

/-- C6 amended: for every floor-log function `flog` (the value of the
platform's `math.floor(math.log(·, 4))`) and every node count whose
floor-log value is at most 30, the difficulty string is the zero-padded
lowercase hex of `e = 32 - (2 + flog(n+1))` followed by `ffffff`; at
`|nodes| ∈ {0, 3, 15, 63, 255}` the library log is exact on the powers
`1, 4, 16, 64, 256` and the string takes the five claimed values, whose
encoded numeric targets strictly shrink. -/
theorem difficulty_amended :
    (∀ (flog : ℕ → ℕ) (n : ℕ), flog (n + 1) ≤ 30 →
      difficulty flog n = specDifficulty (flog (n + 1))) ∧
    difficulty log4floor 0 = "1effffff" ∧
    difficulty log4floor 3 = "1dffffff" ∧
    difficulty log4floor 15 = "1cffffff" ∧
    difficulty log4floor 63 = "1bffffff" ∧
    difficulty log4floor 255 = "1affffff" ∧
    (∃ v26 v27 v28 v29 v30 : ℚ,
      targetValueOfStr "1affffff" = some v26 ∧
      targetValueOfStr "1bffffff" = some v27 ∧
      targetValueOfStr "1cffffff" = some v28 ∧
      targetValueOfStr "1dffffff" = some v29 ∧
      targetValueOfStr "1effffff" = some v30 ∧
      v26 < v27 ∧ v27 < v28 ∧ v28 < v29 ∧ v29 < v30) := by
  have hmk : ∀ (s : String) (e : ℕ), hexVal? (s.take 2) = some e →
      hexVal? (s.drop 2) = some 16777215 →
      targetValueOfStr s = some ((16777215 : ℚ) * 256 ^ ((e : ℤ) - 3)) := by
    intro s e h1 h2
    simp [targetValueOfStr, h1, h2]
  refine ⟨?_, by decide, by decide, by decide, by decide, by decide,
    16777215 * 256 ^ ((26 : ℤ) - 3), 16777215 * 256 ^ ((27 : ℤ) - 3),
    16777215 * 256 ^ ((28 : ℤ) - 3), 16777215 * 256 ^ ((29 : ℤ) - 3),
    16777215 * 256 ^ ((30 : ℤ) - 3),
    hmk _ 26 (by decide) (by decide), hmk _ 27 (by decide) (by decide),
    hmk _ 28 (by decide) (by decide), hmk _ 29 (by decide) (by decide),
    hmk _ 30 (by decide) (by decide), ?_, ?_, ?_, ?_⟩
  · intro flog n hl
    rw [difficulty, specDifficulty]
    generalize flog (n + 1) = ℓ at hl ⊢
    revert hl
    revert ℓ
    decide
  · norm_num
  · norm_num
  · norm_num
  · norm_num

/-- C6 amended witness: at 7 live nodes (floor-log value 1) the formula
yields `1dffffff`. -/
theorem difficulty_amended_witness :
    difficulty log4floor 7 = specDifficulty (log4floor 8) :=
  difficulty_amended.1 log4floor 7 (by decide)

/-! ## C10 — `validate_chain` never enforces genesis validity -/

/-- C10: `validate_chain` discards the boolean `validate_block` returns on
the genesis block, so whenever the loop over `blocks[1:]` succeeds the whole
chain reports valid regardless of that discarded verdict (wrong Merkle
root, hash above target, missing coinbase or wrong coinbase amount all only
flip the discarded boolean). -/
theorem validate_chain_ignores_genesis (C : Crypto) (bc : Blockchain)
    (b₀ : PoWBlock) (rest : List PoWBlock) (gres : Bool) (u : PyDict UTXO)
    (hblocks : bc.blocks = b₀ :: rest)
    (hgen : validate_block C bc b₀ b₀.header.target GENESIS_HASH = .ok gres)
    (htail : chainLoop C bc.blocks rest 1 b₀ (seedGenesis bc.utxo_set b₀) =
      .ok (true, u)) :
    validate_chain C bc = .ok (true, u) := by
  rw [validate_chain, hblocks] at *
  dsimp only
  rw [hgen]
  exact htail

/-- C10 witness: a one-block chain whose genesis has no coinbase —
`validate_block` rejects it (`ok false`), yet `validate_chain` answers
`True`. -/
theorem validate_chain_ignores_genesis_witness :
    validate_block testCrypto ⟨[emptyGenesis], []⟩ emptyGenesis
      emptyGenesis.header.target GENESIS_HASH = .ok false ∧
    validate_chain testCrypto ⟨[emptyGenesis], []⟩ = .ok (true, []) := by
  have hgen : validate_block testCrypto ⟨[emptyGenesis], []⟩ emptyGenesis
      emptyGenesis.header.target GENESIS_HASH = .ok false := by
    norm_num +decide [validate_block, emptyGenesis, target_value_1e,
      hash_testCrypto, testCrypto_hashTx, vbLoop, Blockchain.reward,
      GENESIS_HASH]
  have htail : chainLoop testCrypto [emptyGenesis] [] 1 emptyGenesis
      (seedGenesis [] emptyGenesis) = .ok (true, []) := by
    simp [chainLoop, seedGenesis, emptyGenesis, PoWBlock.outpoints]
  exact ⟨hgen, validate_chain_ignores_genesis testCrypto ⟨[emptyGenesis], []⟩
    emptyGenesis [] false [] rfl hgen htail⟩

/-! ## C4 — coordinator chain reconciliation -/

/-- C4 counterexample: a one-block remote chain that validates against a
two-block local chain that does NOT validate.  The claim demands that the
valid remote chain win regardless of length, but the coordinator's handler
only acts on strictly longer remote chains: the local chain is kept and
nothing is broadcast. -/
theorem chain_valid_remote_ignored_when_shorter :
    (validate_chain testCrypto ⟨[emptyGenesis], []⟩).map Prod.fst =
      .ok true ∧
    (validate_chain testCrypto invalidLocal).map Prod.fst = .ok false ∧
    ¬ ([emptyGenesis].length > invalidLocal.blocks.length) ∧
    handleChain testCrypto invalidLocal [emptyGenesis] =
      .ok (invalidLocal, false) := by
  refine ⟨?_, ?_, by decide, by norm_num [handleChain, invalidLocal]⟩
  · norm_num +decide [validate_chain, validate_block, emptyGenesis,
      target_value_1e, hash_testCrypto, hexVal_genesis, testCrypto_hashTx,
      vbLoop, chainLoop, seedGenesis, PoWBlock.outpoints, Blockchain.reward,
      Except.map, GENESIS_HASH]
  · norm_num +decide [validate_chain, validate_block, invalidLocal,
      emptyGenesis, target_value_1e, hash_testCrypto, hashHex_testCrypto,
      hexVal_genesis, testCrypto_hashTx, vbLoop, chainLoop, seedGenesis,
      PoWBlock.outpoints, Blockchain.reward, Except.map, GENESIS_HASH]

/-- C4 amended: the coordinator replaces its chain if and only if the
remote chain is STRICTLY longer and validates; local validity is never
consulted.  The three branches characterize the handler completely. -/
theorem handleChain_replace_iff (C : Crypto) (localBc : Blockchain)
    (remoteBlocks : List PoWBlock) :
    (remoteBlocks.length ≤ localBc.blocks.length →
      handleChain C localBc remoteBlocks = .ok (localBc, false)) ∧
    (∀ u, localBc.blocks.length < remoteBlocks.length →
      validate_chain C ⟨remoteBlocks, []⟩ = .ok (true, u) →
      handleChain C localBc remoteBlocks = .ok (⟨remoteBlocks, u⟩, true)) ∧
    (∀ u, localBc.blocks.length < remoteBlocks.length →
      validate_chain C ⟨remoteBlocks, []⟩ = .ok (false, u) →
      handleChain C localBc remoteBlocks = .ok (localBc, true)) := by
  refine ⟨?_, ?_, ?_⟩
  · intro hle
    rw [handleChain, if_neg (by omega)]
  · intro u hlt hv
    rw [handleChain, if_pos (by omega), hv]
  · intro u hlt hv
    rw [handleChain, if_pos (by omega), hv]

/-- C4 amended witness: a strictly longer valid remote chain replaces an
empty local chain and is re-broadcast. -/
theorem handleChain_replace_iff_witness :
    handleChain testCrypto ⟨[], []⟩ [emptyGenesis] =
      .ok (⟨[emptyGenesis], []⟩, true) :=
  (handleChain_replace_iff testCrypto ⟨[], []⟩ [emptyGenesis]).2.1 []
    (by simp)
    (by norm_num +decide [validate_chain, validate_block, emptyGenesis,
      target_value_1e, hash_testCrypto, hexVal_genesis, testCrypto_hashTx,
      vbLoop, chainLoop, seedGenesis, PoWBlock.outpoints, Blockchain.reward,
      GENESIS_HASH])

/-! ## C7 — fee returned by `validate_transaction` -/

/-- The input loop of `validate_transaction` accumulates exactly the
amounts of the referenced outputs (data-carrying referenced outputs — and
outputs whose `amount` is the falsy `0` — contribute nothing). -/
lemma vtLoop_fee (C : Crypto) (bc : Blockchain) :
    ∀ (inps : List TxIn) (total : ℚ) (dataAcc : List String)
      (inpairs : List (ℕ × ℤ)) (res : ℚ × List String),
      vtLoop C bc inps total dataAcc inpairs = .ok res →
      res.1 = total + (inps.map (refAmount bc)).sum
  | [], total, dataAcc, inpairs, res, h => by
    simp only [vtLoop, Except.ok.injEq] at h
    subst h
    simp
  | i :: rest, total, dataAcc, inpairs, res, h => by
    rw [vtLoop] at h
    split at h
    case _ pub sig hps =>
      split at h
      · cases h
      · split at h
        · cases h
        case _ utxo hutxo =>
          split at h
          · cases h
          · split at h
            · cases h
            case _ txo href =>
              split at h
              · cases h
              · split at h
                case _ a ha =>
                  split at h
                  · have ih := vtLoop_fee C bc rest (total + a) dataAcc
                      (inpairs ++ [(i.tx_id, i.v_out)]) res h
                    have hamt : refAmount bc i = a := by
                      rcases hta : txo.amount with _ | a'
                      · rw [hta] at ha; simp at ha
                      · rw [hta] at ha
                        by_cases h0 : a' = 0
                        · subst h0; simp at ha
                        · simp [h0] at ha
                          rw [refAmount, hutxo]
                          dsimp only
                          rw [href]
                          simp [hta, ha]
                    rw [ih]
                    simp [List.sum_cons, hamt]
                    ring
                  · cases h
                case _ ha =>
                  split at h
                  · cases h
                  case _ ds hds =>
                    split at h
                    · have ih := vtLoop_fee C bc rest total (dataAcc ++ [ds])
                        (inpairs ++ [(i.tx_id, i.v_out)]) res h
                      have hamt : refAmount bc i = 0 := by
                        rw [refAmount, hutxo]
                        dsimp only
                        rw [href]
                        rcases hta : txo.amount with _ | a'
                        · simp [hta]
                        · rw [hta] at ha
                          by_cases h0 : a' = 0
                          · subst h0; simp [hta]
                          · simp [h0] at ha
                      rw [ih]
                      simp [List.sum_cons, hamt]
                    · cases h
    case _ hps =>
      cases h

/-- A returned fee is never negative (the validator fails on
`total < 0`). -/
lemma vt_fee_nonneg (C : Crypto) (bc : Blockchain) (t : Transaction) (f : ℚ)
    (h : validate_transaction C bc t = .fee f) : 0 ≤ f := by
  rw [validate_transaction] at h
  split at h
  · cases h
  · split at h
    · cases h
    · split at h
      · cases h
      · cases h
      · dsimp only at h
        split at h
        · cases h
        · split at h
          · cases h
          · rename_i hneg hany
            cases h
            exact not_lt.mp hneg

/-- C7: whenever `validate_transaction` returns a fee, that fee equals the
sum of the amounts of the referenced outputs minus the sum of the amounts
of the transaction's own outputs, and it is non-negative. -/
theorem validate_transaction_fee_conservation (C : Crypto) (bc : Blockchain)
    (t : Transaction) (f : ℚ)
    (h : validate_transaction C bc t = .fee f) :
    f = specInAmount bc t - specOutAmount t ∧ 0 ≤ f := by
  refine ⟨?_, vt_fee_nonneg C bc t f h⟩
  rw [validate_transaction] at h
  split at h
  · cases h
  · split at h
    · cases h
    case _ inps hinp =>
      split at h
      · cases h
      · cases h
      case _ total₀ dataAcc hloop =>
        dsimp only at h
        split at h
        · cases h
        · split at h
          · cases h
          · cases h
            have hfee := vtLoop_fee C bc inps 0 [] [] (total₀, dataAcc) hloop
            have hin : specInAmount bc t = (inps.map (refAmount bc)).sum := by
              rw [specInAmount, hinp]
              rfl
            have hout : (match t.outputs with
                | none => (0 : ℚ)
                | some os => (os.map (fun o => o.amount.getD 0)).sum) =
                specOutAmount t := by
              rcases houts : t.outputs with _ | os <;>
                simp [specOutAmount, houts]
            rw [hout, hin]
            simp at hfee
            rw [hfee]

/-- C7 witness, the P4 scenario: spending a 10000-amount UTXO output into
outputs of 1000 and 8999 under an accepting verifier returns fee 1, which
equals `in_amount - out_amount` and is non-negative. -/
theorem validate_transaction_fee_conservation_witness :
    validate_transaction testCrypto bcP4 spendP4 = .fee 1 ∧
    (1 : ℚ) = specInAmount bcP4 spendP4 - specOutAmount spendP4 ∧
    (0 : ℚ) ≤ 1 := by
  have hv : validate_transaction testCrypto bcP4 spendP4 = .fee 1 := by
    norm_num [validate_transaction, vtLoop, refOutput, dictGet, pyIndex, bcP4,
      spendP4, coinBlock, testCrypto]
  exact ⟨hv,
    validate_transaction_fee_conservation testCrypto bcP4 spendP4 1 hv⟩

/-! ## C2 — coinbase rule of `validate_block` -/

/-- When the transaction loop of `validate_block` completes, every coinbase
has a single amount-bearing output, a coinbase reached while the running
`fee` is non-zero is rejected (so any coinbase before another one carries
amount 0), the final `fee` is the last coinbase's amount (or the incoming
`fee` when there is none), and `total` accumulates the fees of the
validated non-coinbase transactions. -/
lemma vbLoop_ok_spec (C : Crypto) (bc : Blockchain) :
    ∀ (txs : List (ℕ × Transaction)) (fee total fee' total' : ℚ),
      vbLoop C bc txs fee total = .ok (some (fee', total')) →
      (∀ p ∈ txs, p.2.coinbase = true →
        ∃ o a, p.2.outputs = some [o] ∧ o.amount = some a) ∧
      (∀ p ∈ txs, p.2.coinbase = false →
        ∃ fp, validate_transaction C bc p.2 = .fee fp) ∧
      ((txs.filter (fun p => p.2.coinbase)) ≠ [] → fee = 0) ∧
      (∀ p ∈ (txs.filter (fun p => p.2.coinbase)).dropLast,
        coinbaseAmount p.2 = some 0) ∧
      (match (txs.filter (fun p => p.2.coinbase)).getLast? with
       | none => fee' = fee
       | some p => coinbaseAmount p.2 = some fee') ∧
      (total' = total +
        ((txs.filter (fun p => !p.2.coinbase)).map
          (fun p => extractFee (validate_transaction C bc p.2))).sum)
  | [], fee, total, fee', total', h => by
    simp only [vbLoop, Except.ok.injEq, Option.some.injEq, Prod.mk.injEq] at h
    obtain ⟨hf, ht⟩ := h
    subst hf; subst ht
    refine ⟨by simp, by simp, by simp, by simp, by simp, by simp⟩
  | (txid, t) :: rest, fee, total, fee', total', h => by
    rw [vbLoop] at h
    split at h
    · simp at h
    · split at h
      · -- coinbase transaction at the head
        rename_i hcb
        split at h
        · simp at h
        · rename_i hfee0
          have hfee : fee = 0 := by
            by_contra hne
            exact hfee0 hne
          split at h
          · cases h
          case _ os hos =>
            split at h
            · simp at h
            · rename_i hlen1
              have hlen : os.length = 1 := by omega
              obtain ⟨o, rfl⟩ := List.length_eq_one.mp hlen
              split at h
              · cases h
              case _ a ha =>
                have hoa : o.amount = some a := by simpa using ha
                have ih := vbLoop_ok_spec C bc rest a total fee' total' h
                obtain ⟨ih1, ih2, ih3, ih4, ih5, ih6⟩ := ih
                have hcbA : coinbaseAmount t = some a := by
                  rw [coinbaseAmount, hos]
                  simp [hoa]
                refine ⟨?_, ?_, ?_, ?_, ?_, ?_⟩
                · intro p hp hpcb
                  rcases List.mem_cons.mp hp with hp | hp
                  · subst hp
                    exact ⟨o, a, hos, hoa⟩
                  · exact ih1 p hp hpcb
                · intro p hp hpcb
                  rcases List.mem_cons.mp hp with hp | hp
                  · subst hp
                    rw [hcb] at hpcb
                    cases hpcb
                  · exact ih2 p hp hpcb
                · intro _
                  exact hfee
                · intro p hp
                  simp only [List.filter_cons, hcb, if_true] at hp
                  rcases hfr : rest.filter (fun p => p.2.coinbase)
                    with _ | ⟨q, qs⟩
                  · rw [hfr, List.dropLast_single] at hp
                    cases hp
                  · rw [hfr, List.dropLast_cons₂] at hp
                    rcases List.mem_cons.mp hp with hp | hp
                    · subst hp
                      have ha0 : a = 0 := ih3 (by rw [hfr]; simp)
                      rw [ha0] at hcbA
                      exact hcbA
                    · have h4 := ih4 p
                      rw [hfr] at h4
                      exact h4 hp
                · simp only [List.filter_cons, hcb, if_true]
                  rcases hfr : rest.filter (fun p => p.2.coinbase)
                    with _ | ⟨q, qs⟩
                  · rw [hfr]
                    simp only [List.getLast?_singleton]
                    rw [hfr] at ih5
                    simp only [List.getLast?_nil] at ih5
                    rw [ih5]
                    exact hcbA
                  · rw [hfr, List.getLast?_cons_cons]
                    rw [hfr] at ih5
                    exact ih5
                · simp only [List.filter_cons, hcb, Bool.not_true, if_neg,
                    Bool.false_eq_true, not_false_eq_true]
                  exact ih6
      · -- non-coinbase transaction at the head
        rename_i hcb
        have hcbf : t.coinbase = false := by simpa using hcb
        split at h
        · cases h
        · simp at h
        case _ a hvt =>
          have ih := vbLoop_ok_spec C bc rest fee (total + a) fee' total' h
          obtain ⟨ih1, ih2, ih3, ih4, ih5, ih6⟩ := ih
          refine ⟨?_, ?_, ?_, ?_, ?_, ?_⟩
          · intro p hp hpcb
            rcases List.mem_cons.mp hp with hp | hp
            · subst hp
              rw [hcbf] at hpcb
              cases hpcb
            · exact ih1 p hp hpcb
          · intro p hp hpcb
            rcases List.mem_cons.mp hp with hp | hp
            · subst hp
              exact ⟨a, hvt⟩
            · exact ih2 p hp hpcb
          · intro hne
            apply ih3
            simp only [List.filter_cons, hcbf] at hne
            simpa using hne
          · intro p hp
            apply ih4
            simp only [List.filter_cons, hcbf] at hp
            simpa using hp
          · simp only [List.filter_cons, hcbf, Bool.false_eq_true, if_neg,
              not_false_eq_true]
            exact ih5
          · have hfc : List.filter (fun p => !p.2.coinbase)
                ((txid, t) :: rest) =
                (txid, t) :: List.filter (fun p => !p.2.coinbase) rest := by
              simp [List.filter_cons, hcbf]
            rw [hfc]
            simp only [List.map_cons, List.sum_cons]
            rw [hvt, ih6]
            simp only [extractFee]
            ring

/-- C2 amended: if `validate_block` answers `True` then every coinbase in
the block has a single amount-bearing output, every coinbase that precedes
another coinbase has amount 0, every non-coinbase transaction passes
`validate_transaction`, and the LAST coinbase's amount equals reward plus
the sum of the returned fees — the check marks a coinbase as "seen" by the
truthiness of its amount, so zero-amount coinbases do not arm it. -/
theorem validate_block_coinbase_rule (C : Crypto) (bc : Blockchain)
    (block : PoWBlock) (d lh : String)
    (h : validate_block C bc block d lh = .ok true) :
    (∀ p ∈ block.transactions, p.2.coinbase = true →
      ∃ o a, p.2.outputs = some [o] ∧ o.amount = some a) ∧
    (∀ p ∈ block.transactions, p.2.coinbase = false →
      ∃ fp, validate_transaction C bc p.2 = .fee fp) ∧
    (∀ p ∈ (block.transactions.filter (fun p => p.2.coinbase)).dropLast,
      coinbaseAmount p.2 = some 0) ∧
    (∃ p, (block.transactions.filter (fun p => p.2.coinbase)).getLast? =
        some p ∧
      coinbaseAmount p.2 = some
        (((block.transactions.filter (fun p => !p.2.coinbase)).map
          (fun p => extractFee (validate_transaction C bc p.2))).sum +
         Blockchain.reward)) := by
  rw [validate_block] at h
  split at h
  · simp at h
  · split at h
    · simp at h
    · split at h
      · cases h
      · cases h
      · split at h
        · simp at h
        · split at h
          · cases h
          · simp at h
          case _ fee total heq =>
            split at h
            · simp at h
            · rename_i hfinal
              have hfee : fee = total + Blockchain.reward := by
                by_contra hne
                exact hfinal hne
              obtain ⟨ih1, ih2, ih3, ih4, ih5, ih6⟩ :=
                vbLoop_ok_spec C bc block.transactions 0 0 fee total heq
              have hsum : total =
                  ((block.transactions.filter (fun p => !p.2.coinbase)).map
                    (fun p =>
                      extractFee (validate_transaction C bc p.2))).sum := by
                rw [ih6]
                ring
              have hnn : 0 ≤ total := by
                rw [hsum]
                apply List.sum_nonneg
                intro x hx
                obtain ⟨p, hpmem, hpx⟩ := List.mem_map.mp hx
                have hpm : p ∈ block.transactions :=
                  List.mem_of_mem_filter hpmem
                have hpcb : p.2.coinbase = false := by
                  have := List.of_mem_filter hpmem
                  simpa using this
                obtain ⟨fp, hfp⟩ := ih2 p hpm hpcb
                rw [← hpx, hfp]
                simpa [extractFee] using vt_fee_nonneg C bc p.2 fp hfp
              refine ⟨ih1, ih2, ih4, ?_⟩
              rcases hlast : (block.transactions.filter
                  (fun p => p.2.coinbase)).getLast? with _ | p
              · rw [hlast] at ih5
                have : (0 : ℚ) < Blockchain.reward := by
                  norm_num [Blockchain.reward]
                exact absurd hfee (by rw [ih5]; linarith)
              · rw [hlast] at ih5
                exact ⟨p, hlast, by rw [ih5, hfee, hsum]⟩

/-- C2 counterexample: a block containing TWO coinbase transactions — the
first with single-output amount 0, the second with single-output amount
3.125 — passes `validate_block`, because the duplicate-coinbase check
`if t.get("coinbase") and (fee or ...)` relies on the truthiness of the
previously recorded amount. -/
theorem two_coinbases_accepted :
    validate_block testCrypto ⟨[], []⟩ twoCoinbaseBlock "1effffff" "p" =
      .ok true ∧
    (twoCoinbaseBlock.transactions.filter (fun p => p.2.coinbase)).length =
      2 := by
  constructor
  · norm_num [validate_block, twoCoinbaseBlock, target_value_1e,
      hash_testCrypto, testCrypto_hashTx, vbLoop, Blockchain.reward]
  · decide

/-- C2 amended witness: the accepted two-coinbase block satisfies the
amended rule — its last coinbase carries `0 + reward`. -/
theorem validate_block_coinbase_rule_witness :
    ∃ p, ((twoCoinbaseBlock.transactions.filter
        (fun p => p.2.coinbase)).getLast? = some p ∧
      coinbaseAmount p.2 = some
        (((twoCoinbaseBlock.transactions.filter
            (fun p => !p.2.coinbase)).map
          (fun p =>
            extractFee (validate_transaction testCrypto ⟨[], []⟩ p.2))).sum +
         Blockchain.reward)) :=
  (validate_block_coinbase_rule testCrypto ⟨[], []⟩ twoCoinbaseBlock
    "1effffff" "p"
    (by norm_num [validate_block, twoCoinbaseBlock, target_value_1e,
      hash_testCrypto, testCrypto_hashTx, vbLoop, Blockchain.reward])).2.2.2

end SimpleBlockchain
